import Mathlib

/-!
Verification of the FMM interaction-list builder (`boxtree/traversal.py`).

The OpenCL kernel templates of the traversal builder are shallowly embedded as
pure Lean functions over a `Tree` record: coordinates are exact rationals, the
explicit `box_stack`/`morton_nr_stack` walks of the kernels become structurally
recursive depth-first searches with a fuel parameter equal to the `NLEVELS`
stack bound, and the driver `FMMTraversalBuilder.__call__` becomes an
`Except`-valued function assembling the `FMMTraversalInfo` record.
-/

namespace Boxtree

/-- The input tree record, with the fields of `boxtree.Tree` that the traversal
builder reads.  `box_child_ids m b` is the child of `b` in morton slot `m`
(`0` means "no child"); `centers b i` is coordinate `i` of the center of box
`b`; the flag accessors model the `box_flags` bitset. -/
structure Tree where
  dims : ℕ
  nboxes : ℕ
  nlevels : ℕ
  root_extent : ℚ
  centers : ℕ → ℕ → ℚ
  box_levels : ℕ → ℕ
  box_parent_ids : ℕ → ℕ
  box_child_ids : ℕ → ℕ → ℕ
  hasOwnSources : ℕ → Bool
  hasChildSources : ℕ → Bool
  hasOwnTargets : ℕ → Bool
  hasChildren : ℕ → Bool
  level_start_box_nrs : ℕ → ℕ
  sources_are_targets : Bool
  is_pruned : Bool

/-- The value `2**dimensions`, the number of morton slots per box. -/
def nchildren (t : Tree) : ℕ := 2 ^ t.dims

/-- The macro `LEVEL_TO_SIZE(level)`: `root_extent * 1 / (1 << level)`. -/
def levelToSize (t : Tree) (l : ℕ) : ℚ := t.root_extent * 1 / 2 ^ l

/-- The `max_dist` accumulation of `is_adjacent_or_overlapping`: starting from
`0`, fold `fmax` of the per-axis absolute center differences. -/
def maxDist (t : Tree) (c : ℕ → ℚ) (other : ℕ) : ℚ :=
  (List.range t.dims).foldl (fun acc i => max acc |c i - t.centers other i|) 0

/-- The adjacency test of `HELPER_FUNCTION_TEMPLATE`: the first box is given by
its center `c` and `level`, the second is looked up through `box_levels`. -/
def is_adjacent_or_overlapping (t : Tree) (c : ℕ → ℚ) (level : ℕ) (other : ℕ) : Bool :=
  let other_level := t.box_levels other
  let size_sum := 1/2 * (levelToSize t level + levelToSize t other_level)
  let slack := size_sum + 1/2 * levelToSize t (max level other_level)
  decide (maxDist t c other ≤ slack)

/-- The quantity `size(ℓ) = root_extent · 2^(−ℓ)` written with the specification's signed
exponent, for the statement of the adjacency-formula claim. -/
def specSize (t : Tree) (l : ℕ) : ℚ := t.root_extent * (2 : ℚ) ^ (-(l : ℤ))

/-- Iterated `box_parent_ids`: the ancestor of `b` that is `k` levels up. -/
def ancestor (t : Tree) (b : ℕ) : ℕ → ℕ
  | 0 => b
  | k + 1 => t.box_parent_ids (ancestor t b k)

/-- The stack walk of `COLLEAGUES_TEMPLATE`, as a depth-first search: at walk
box `wb` (on walk level `wl`), examine each morton slot; an adjacent nonzero
child on the query level that is not the query box itself is emitted, any
other adjacent nonzero child is descended into. -/
def colleaguesGo (t : Tree) (box_id lvl : ℕ) : ℕ → ℕ → ℕ → List ℕ
  | 0, _, _ => []
  | fuel + 1, wb, wl =>
    (List.range (nchildren t)).flatMap fun m =>
      let child := t.box_child_ids m wb
      if child ≠ 0 then
        if is_adjacent_or_overlapping t (t.centers box_id) lvl child then
          if wl + 1 = lvl ∧ child ≠ box_id then [child]
          else colleaguesGo t box_id lvl fuel child (wl + 1)
        else []
      else []

/-- Kernel `COLLEAGUES_TEMPLATE`: the root has no colleagues; otherwise walk the tree
from the root with a stack bounded by `NLEVELS`. -/
def colleagues (t : Tree) (box_id : ℕ) : List ℕ :=
  if box_id = 0 then []
  else colleaguesGo t box_id (t.box_levels box_id) t.nlevels 0 0

/-- The stack walk of `NEIGBHOR_SOURCE_BOXES_TEMPLATE`: emit adjacent boxes
with `BOX_HAS_OWN_SOURCES`, descend into adjacent boxes with
`BOX_HAS_CHILD_SOURCES`. -/
def neighborGo (t : Tree) (c : ℕ → ℚ) (lvl : ℕ) : ℕ → ℕ → List ℕ
  | 0, _ => []
  | fuel + 1, wb =>
    (List.range (nchildren t)).flatMap fun m =>
      let child := t.box_child_ids m wb
      if child ≠ 0 then
        if is_adjacent_or_overlapping t c lvl child then
          (if t.hasOwnSources child then [child] else []) ++
            (if t.hasChildSources child then neighborGo t c lvl fuel child else [])
        else []
      else []

/-- List 1 for a target box: the walk of `NEIGBHOR_SOURCE_BOXES_TEMPLATE`
started at the root. -/
def neighbor_source_boxes (t : Tree) (box_id : ℕ) : List ℕ :=
  neighborGo t (t.centers box_id) (t.box_levels box_id) t.nlevels 0

/-- Kernel `SEP_SIBLINGS_TEMPLATE` (list 2): for each colleague of the parent, emit
every morton slot (no zero test in the source) that is not
adjacent-or-overlapping to the query box. -/
def sep_siblings (t : Tree) (box_id : ℕ) : List ℕ :=
  let parent := t.box_parent_ids box_id
  if parent = box_id then []
  else
    (colleagues t parent).flatMap fun parent_colleague =>
      (List.range (nchildren t)).flatMap fun morton_nr =>
        let sib := t.box_child_ids morton_nr parent_colleague
        if ¬ is_adjacent_or_overlapping t (t.centers box_id) (t.box_levels box_id) sib then
          [sib]
        else []

/-- The stack walk of `SEP_SMALLER_NONSIBLINGS_TEMPLATE`: descend into
adjacent boxes with children, emit non-adjacent children. -/
def sepSmallerGo (t : Tree) (c : ℕ → ℚ) (lvl : ℕ) : ℕ → ℕ → List ℕ
  | 0, _ => []
  | fuel + 1, wb =>
    (List.range (nchildren t)).flatMap fun m =>
      let child := t.box_child_ids m wb
      if child ≠ 0 then
        if is_adjacent_or_overlapping t c lvl child then
          if t.hasChildren child then sepSmallerGo t c lvl fuel child else []
        else [child]
      else []

/-- List 3 for a target box: a `walk_init(colleague)` walk per colleague. -/
def sep_smaller_nonsiblings (t : Tree) (box_id : ℕ) : List ℕ :=
  (colleagues t box_id).flatMap fun colleague =>
    sepSmallerGo t (t.centers box_id) (t.box_levels box_id) t.nlevels colleague

/-- Kernel `SEP_BIGGER_NONSIBLINGS_TEMPLATE` (list 4): walk the ancestors of the
query box (stopping before level 0), and for each colleague of each ancestor
that has own sources and is not adjacent to the query box, emit it unless some
closer ancestor of the query box is already non-adjacent to it. -/
def sep_bigger_nonsiblings (t : Tree) (box_id : ℕ) : List ℕ :=
  let box_level := t.box_levels box_id
  (List.range box_level).flatMap fun j =>
    let k := j + 1
    if box_level - k = 0 then []
    else
      let current_parent := ancestor t box_id k
      (colleagues t current_parent).flatMap fun colleague_box_id =>
        if ¬ is_adjacent_or_overlapping t (t.centers box_id) box_level colleague_box_id
            ∧ t.hasOwnSources colleague_box_id then
          if (List.range (k - 1)).all fun j2 =>
              is_adjacent_or_overlapping t (t.centers colleague_box_id) (box_level - k)
                (ancestor t box_id (j2 + 1)) then
            [colleague_box_id]
          else []
        else []

/-- Kernel `SOURCES_PARENTS_AND_TARGETS_TEMPLATE`, `source_boxes` output: one entry
per box with `BOX_HAS_OWN_SOURCES`, in box-id order. -/
def source_boxes (t : Tree) : List ℕ :=
  (List.range t.nboxes).filter fun b => t.hasOwnSources b

/-- Kernel `SOURCES_PARENTS_AND_TARGETS_TEMPLATE`, `source_parent_boxes` output. -/
def source_parent_boxes (t : Tree) : List ℕ :=
  (List.range t.nboxes).filter fun b => t.hasChildSources b

/-- The `target_boxes` output of stage S0: the mako guard
`%if not sources_are_targets` means no target list at all is generated when
`sources_are_targets` is set. -/
def target_boxes_opt (t : Tree) : Option (List ℕ) :=
  if t.sources_are_targets then none
  else some ((List.range t.nboxes).filter fun b => t.hasOwnTargets b)

/-- The per-position test of `LEVEL_START_BOX_NR_EXTRACTOR_TEMPLATE`: at
position `i ≥ 1` of `box_list`, write `i` into slot `my_level` when
`prev_box_id < level_start_box_nrs[my_level] ≤ my_box_id`. -/
def lsCond (t : Tree) (L : List ℕ) (i : ℕ) : Option ℕ :=
  let my_box_id := L.getD i 0
  let prev_box_id := L.getD (i - 1) 0
  let my_level := t.box_levels my_box_id
  if prev_box_id < t.level_start_box_nrs my_level
      ∧ t.level_start_box_nrs my_level ≤ my_box_id then
    some my_level
  else none

/-- The elementwise kernel of `extract_level_start_box_nrs`, ranged over
`slice(1, len(box_list))`, starting from an array filled with
`len(box_list)`. -/
def lsKernel (t : Tree) (L : List ℕ) : ℕ → ℕ :=
  (List.range' 1 (L.length - 1)).foldl
    (fun res i =>
      match lsCond t L i with
      | some lv => fun lv2 => if lv2 = lv then i else res lv2
      | none => res)
    fun _ => L.length

/-- The kernel result after the host-side `result[0] = 0` fixup. -/
def lsAfterRoot (t : Tree) (L : List ℕ) : ℕ → ℕ :=
  fun lv => if lv = 0 then 0 else lsKernel t L lv

/-- The final `extract_level_start_box_nrs` output: the top-to-bottom running
minimum clamps every never-written level to the next non-empty start; entries
from `nlevels` on keep the fill value `len(box_list)`. -/
def extract_level_start_box_nrs (t : Tree) (L : List ℕ) (lv : ℕ) : ℕ :=
  if h : t.nlevels ≤ lv then L.length
  else min (lsAfterRoot t L lv) (extract_level_start_box_nrs t L (lv + 1))
termination_by t.nlevels - lv
decreasing_by omega

/-- The only error the driver raises before producing its result:
`ValueError("tree must be pruned for traversal generation")`. -/
inductive TravError where
  | treeNotPruned
deriving DecidableEq

/-- The output record of the builder (`FMMTraversalInfo`), with each
compressed-sparse list represented by its per-key list function. -/
structure FMMTraversalInfo where
  source_boxes : List ℕ
  target_boxes : List ℕ
  source_parent_boxes : List ℕ
  level_start_source_parent_box_nrs : ℕ → ℕ
  colleagues : ℕ → List ℕ
  neighbor_source_boxes : ℕ → List ℕ
  sep_siblings : ℕ → List ℕ
  sep_smaller_nonsiblings : ℕ → List ℕ
  sep_bigger_nonsiblings : ℕ → List ℕ

/-- The driver `FMMTraversalBuilder.__call__`: check `tree._is_pruned`, then
run the six stages; `target_boxes` is bound to `source_boxes` itself when
`sources_are_targets`. -/
def buildTraversal (t : Tree) : Except TravError FMMTraversalInfo :=
  if t.is_pruned then
    let src := source_boxes t
    let tgt := (target_boxes_opt t).getD src
    Except.ok
      { source_boxes := src
        target_boxes := tgt
        source_parent_boxes := source_parent_boxes t
        level_start_source_parent_box_nrs :=
          extract_level_start_box_nrs t (source_parent_boxes t)
        colleagues := fun b => colleagues t b
        neighbor_source_boxes := fun n => neighbor_source_boxes t (tgt.getD n 0)
        sep_siblings := fun b => sep_siblings t b
        sep_smaller_nonsiblings := fun n => sep_smaller_nonsiblings t (tgt.getD n 0)
        sep_bigger_nonsiblings := fun b => sep_bigger_nonsiblings t b }
  else Except.error TravError.treeNotPruned

/-- The input contract on trees (§3 of the data model): boxes are identified
by levels and centers consistent with the parent/child structure, flags are
propagated upward, and ids stay in `[0, nboxes)`.  All quantifiers are bounded
so that the invariants can be checked by `decide` on concrete trees. -/
structure Valid (t : Tree) : Prop where
  re_pos : 0 < t.root_extent
  nboxes_pos : 0 < t.nboxes
  root_level : t.box_levels 0 = 0
  levels_lt : ∀ b, b < t.nboxes → t.box_levels b < t.nlevels
  child_lt : ∀ m, m < nchildren t → ∀ b, b < t.nboxes →
    t.box_child_ids m b ≠ 0 → t.box_child_ids m b < t.nboxes
  child_level : ∀ m, m < nchildren t → ∀ b, b < t.nboxes →
    t.box_child_ids m b ≠ 0 → t.box_levels (t.box_child_ids m b) = t.box_levels b + 1
  child_parent : ∀ m, m < nchildren t → ∀ b, b < t.nboxes →
    t.box_child_ids m b ≠ 0 → t.box_parent_ids (t.box_child_ids m b) = b
  child_slot_inj : ∀ m, m < nchildren t → ∀ m2, m2 < nchildren t → ∀ b, b < t.nboxes →
    (m ≠ m2 ∧ t.box_child_ids m b ≠ 0) → t.box_child_ids m b ≠ t.box_child_ids m2 b
  parent_lt : ∀ b, b < t.nboxes → t.box_parent_ids b < t.nboxes
  parent_child : ∀ b, b < t.nboxes → b ≠ 0 →
    ∃ m, m < nchildren t ∧ t.box_child_ids m (t.box_parent_ids b) = b
  child_center : ∀ m, m < nchildren t → ∀ b, b < t.nboxes → t.box_child_ids m b ≠ 0 →
    ∀ i, i < t.dims →
      |t.centers (t.box_child_ids m b) i - t.centers b i| ≤ levelToSize t (t.box_levels b + 1) / 2
  child_sources : ∀ m, m < nchildren t → ∀ b, b < t.nboxes → t.box_child_ids m b ≠ 0 →
    (t.hasOwnSources (t.box_child_ids m b) = true
      ∨ t.hasChildSources (t.box_child_ids m b) = true) →
    t.hasChildSources b = true

/-- A degenerate single-box tree: the root alone carries sources and targets
(`sources_are_targets` set). -/
def t1 : Tree where
  dims := 2
  nboxes := 1
  nlevels := 1
  root_extent := 1
  centers := fun _ _ => 0
  box_levels := fun _ => 0
  box_parent_ids := fun _ => 0
  box_child_ids := fun _ _ => 0
  hasOwnSources := fun _ => true
  hasChildSources := fun _ => false
  hasOwnTargets := fun _ => true
  hasChildren := fun _ => false
  level_start_box_nrs := fun lv => if lv = 0 then 0 else 1
  sources_are_targets := true
  is_pruned := true

/-- A 2-D level-1 tree: root plus its four children, all four leaves carrying
sources and targets. -/
def t2 : Tree where
  dims := 2
  nboxes := 5
  nlevels := 2
  root_extent := 1
  centers := fun b i =>
    match b, i with
    | 1, 0 => -(1/4) | 1, 1 => -(1/4)
    | 2, 0 => 1/4    | 2, 1 => -(1/4)
    | 3, 0 => -(1/4) | 3, 1 => 1/4
    | 4, 0 => 1/4    | 4, 1 => 1/4
    | _, _ => 0
  box_levels := fun b => if b = 0 then 0 else 1
  box_parent_ids := fun _ => 0
  box_child_ids := fun m b => if b = 0 ∧ m < 4 then m + 1 else 0
  hasOwnSources := fun b => decide (1 ≤ b ∧ b ≤ 4)
  hasChildSources := fun b => decide (b = 0)
  hasOwnTargets := fun b => decide (1 ≤ b ∧ b ≤ 4)
  hasChildren := fun b => decide (b = 0)
  level_start_box_nrs := fun lv => if lv = 0 then 0 else if lv = 1 then 1 else 5
  sources_are_targets := false
  is_pruned := true

/-- A 2-D tree with one refined quadrant: root, four level-1 children, and the
lower-left child (box 1) further refined into boxes 5–8. -/
def t3 : Tree where
  dims := 2
  nboxes := 9
  nlevels := 3
  root_extent := 1
  centers := fun b i =>
    match b, i with
    | 1, 0 => -(1/4) | 1, 1 => -(1/4)
    | 2, 0 => 1/4    | 2, 1 => -(1/4)
    | 3, 0 => -(1/4) | 3, 1 => 1/4
    | 4, 0 => 1/4    | 4, 1 => 1/4
    | 5, 0 => -(3/8) | 5, 1 => -(3/8)
    | 6, 0 => -(1/8) | 6, 1 => -(3/8)
    | 7, 0 => -(3/8) | 7, 1 => -(1/8)
    | 8, 0 => -(1/8) | 8, 1 => -(1/8)
    | _, _ => 0
  box_levels := fun b => if b = 0 then 0 else if b ≤ 4 then 1 else 2
  box_parent_ids := fun b => if b ≤ 4 then 0 else 1
  box_child_ids := fun m b =>
    if b = 0 ∧ m < 4 then m + 1 else if b = 1 ∧ m < 4 then m + 5 else 0
  hasOwnSources := fun b => decide (2 ≤ b ∧ b ≤ 8)
  hasChildSources := fun b => decide (b ≤ 1)
  hasOwnTargets := fun b => decide (2 ≤ b ∧ b ≤ 8)
  hasChildren := fun b => decide (b ≤ 1)
  level_start_box_nrs := fun lv =>
    if lv = 0 then 0 else if lv = 1 then 1 else if lv = 2 then 5 else 9
  sources_are_targets := false
  is_pruned := true

theorem foldl_max_le_iff (f : ℕ → ℚ) (l : List ℕ) (a x : ℚ) :
    l.foldl (fun acc i => max acc (f i)) a ≤ x ↔ a ≤ x ∧ ∀ i ∈ l, f i ≤ x := by
  induction l generalizing a with
  | nil => simp
  | cons y ys ih =>
    simp only [List.foldl_cons, ih, max_le_iff, List.mem_cons]
    constructor
    · rintro ⟨⟨h1, h2⟩, h3⟩
      exact ⟨h1, fun i hi => hi.elim (fun e => e ▸ h2) (h3 i)⟩
    · rintro ⟨h1, h2⟩
      exact ⟨⟨h1, h2 y (Or.inl rfl)⟩, fun i hi => h2 i (Or.inr hi)⟩

theorem maxDist_le_iff (t : Tree) (c : ℕ → ℚ) (o : ℕ) (x : ℚ) :
    maxDist t c o ≤ x ↔ 0 ≤ x ∧ ∀ i, i < t.dims → |c i - t.centers o i| ≤ x := by
  unfold maxDist
  rw [foldl_max_le_iff]
  simp [List.mem_range]

theorem adj_iff (t : Tree) (c : ℕ → ℚ) (lvl o : ℕ) :
    is_adjacent_or_overlapping t c lvl o = true ↔
      maxDist t c o ≤ 1/2 * (levelToSize t lvl + levelToSize t (t.box_levels o))
        + 1/2 * levelToSize t (max lvl (t.box_levels o)) := by
  simp [is_adjacent_or_overlapping]

theorem levelToSize_nonneg (t : Tree) (h : 0 ≤ t.root_extent) (l : ℕ) :
    0 ≤ levelToSize t l := by
  unfold levelToSize
  positivity

theorem levelToSize_antitone (t : Tree) (h : 0 ≤ t.root_extent) {l l2 : ℕ} (hl : l ≤ l2) :
    levelToSize t l2 ≤ levelToSize t l := by
  unfold levelToSize
  gcongr
  exact one_le_two

theorem levelToSize_succ (t : Tree) (l : ℕ) : levelToSize t l = 2 * levelToSize t (l + 1) := by
  unfold levelToSize
  rw [pow_succ]
  have h : (2:ℚ) ^ l ≠ 0 := by positivity
  field_simp
  ring

theorem levelToSize_zero (t : Tree) : levelToSize t 0 = t.root_extent := by
  simp [levelToSize]

theorem maxDist_comm (t : Tree) (a b : ℕ) :
    maxDist t (t.centers a) b = maxDist t (t.centers b) a := by
  unfold maxDist
  congr 1
  funext acc i
  rw [abs_sub_comm]

theorem adj_comm (t : Tree) (a b : ℕ) :
    is_adjacent_or_overlapping t (t.centers a) (t.box_levels a) b
      = is_adjacent_or_overlapping t (t.centers b) (t.box_levels b) a := by
  have h : (is_adjacent_or_overlapping t (t.centers a) (t.box_levels a) b = true)
      ↔ (is_adjacent_or_overlapping t (t.centers b) (t.box_levels b) a = true) := by
    rw [adj_iff, adj_iff, maxDist_comm t a b, max_comm,
      add_comm (levelToSize t (t.box_levels a))]
  exact Bool.eq_iff_iff.mpr h

/-- The single-box tree with a 4-dimensional `dims` field: the driver contains
no dimension check, so this input exercises the missing-validation path. -/
def t4 : Tree :=
  { t1 with dims := 4 }

theorem valid_t1 : Valid t1 := by
  constructor <;> with_unfolding_all decide

theorem valid_t2 : Valid t2 := by
  constructor <;> with_unfolding_all decide

theorem valid_t3 : Valid t3 := by
  constructor <;> with_unfolding_all decide

theorem ancestor_add (t : Tree) (b k : ℕ) :
    ∀ j, ancestor t b (k + j) = ancestor t (ancestor t b k) j := by
  intro j
  induction j with
  | zero => rfl
  | succ j ih =>
    show ancestor t b (k + j + 1) = t.box_parent_ids (ancestor t (ancestor t b k) j)
    rw [← ih]
    rfl

theorem parent_level (t : Tree) (v : Valid t) {b : ℕ} (hb : b < t.nboxes) (h0 : b ≠ 0) :
    t.box_levels (t.box_parent_ids b) + 1 = t.box_levels b := by
  obtain ⟨m, hm, hc⟩ := v.parent_child b hb h0
  have h := v.child_level m hm (t.box_parent_ids b) (v.parent_lt b hb) (by rw [hc]; exact h0)
  rw [hc] at h
  omega

theorem level_pos_of_ne_zero (t : Tree) (v : Valid t) {b : ℕ} (hb : b < t.nboxes)
    (h0 : b ≠ 0) : 0 < t.box_levels b := by
  have := parent_level t v hb h0
  omega

theorem eq_zero_of_level_eq_zero (t : Tree) (v : Valid t) {b : ℕ} (hb : b < t.nboxes)
    (h : t.box_levels b = 0) : b = 0 := by
  by_contra h0
  have := level_pos_of_ne_zero t v hb h0
  omega

theorem ancestor_lt (t : Tree) (v : Valid t) {b : ℕ} (hb : b < t.nboxes) :
    ∀ k, ancestor t b k < t.nboxes := by
  intro k
  induction k with
  | zero => exact hb
  | succ k ih => exact v.parent_lt _ ih

theorem ancestor_level (t : Tree) (v : Valid t) {b : ℕ} (hb : b < t.nboxes) :
    ∀ k, k ≤ t.box_levels b → t.box_levels (ancestor t b k) = t.box_levels b - k := by
  intro k
  induction k with
  | zero =>
    intro _
    rfl
  | succ k ih =>
    intro hk
    have hlev := ih (by omega)
    have hanc_lt := ancestor_lt t v hb k
    have hne : ancestor t b k ≠ 0 := by
      intro h0
      rw [h0, v.root_level] at hlev
      omega
    have hp := parent_level t v hanc_lt hne
    show t.box_levels (t.box_parent_ids (ancestor t b k)) = t.box_levels b - (k + 1)
    omega

theorem ancestor_ne_zero (t : Tree) (v : Valid t) {b k : ℕ} (hb : b < t.nboxes)
    (hk : k < t.box_levels b) : ancestor t b k ≠ 0 := by
  intro h0
  have h := ancestor_level t v hb k (by omega)
  rw [h0, v.root_level] at h
  omega

theorem ancestor_root (t : Tree) (v : Valid t) {b : ℕ} (hb : b < t.nboxes) :
    ancestor t b (t.box_levels b) = 0 := by
  apply eq_zero_of_level_eq_zero t v (ancestor_lt t v hb _)
  rw [ancestor_level t v hb _ le_rfl]
  omega

theorem center_ancestor_bound (t : Tree) (v : Valid t) {b : ℕ} (hb : b < t.nboxes) :
    ∀ k, k ≤ t.box_levels b → ∀ i, i < t.dims →
      |t.centers b i - t.centers (ancestor t b k) i|
        ≤ (levelToSize t (t.box_levels b - k) - levelToSize t (t.box_levels b)) / 2 := by
  intro k
  induction k with
  | zero =>
    intro _ i _
    simp [ancestor]
  | succ k ih =>
    intro hk i hi
    have hbound := ih (by omega) i hi
    have hanc_lt := ancestor_lt t v hb k
    have hne : ancestor t b k ≠ 0 := ancestor_ne_zero t v hb (by omega)
    obtain ⟨m, hm, hc⟩ := v.parent_child _ hanc_lt hne
    have hplt := v.parent_lt _ hanc_lt
    have hcc := v.child_center m hm _ hplt (by rw [hc]; exact hne) i hi
    rw [hc] at hcc
    have hlev1 : t.box_levels (ancestor t b (k+1)) = t.box_levels b - (k+1) :=
      ancestor_level t v hb (k+1) hk
    have he : t.box_levels (t.box_parent_ids (ancestor t b k)) + 1 = t.box_levels b - k := by
      have : t.box_parent_ids (ancestor t b k) = ancestor t b (k+1) := rfl
      rw [this, hlev1]
      omega
    rw [he] at hcc
    have hsz : levelToSize t (t.box_levels b - (k+1)) = 2 * levelToSize t (t.box_levels b - k) := by
      have : t.box_levels b - (k+1) + 1 = t.box_levels b - k := by omega
      rw [← this, ← levelToSize_succ]
    have htri : |t.centers b i - t.centers (ancestor t b (k+1)) i|
        ≤ |t.centers b i - t.centers (ancestor t b k) i|
          + |t.centers (ancestor t b k) i - t.centers (ancestor t b (k+1)) i| :=
      abs_sub_le _ _ _
    have hstep : |t.centers (ancestor t b k) i - t.centers (ancestor t b (k+1)) i|
        ≤ levelToSize t (t.box_levels b - k) / 2 := hcc
    rw [hsz]
    linarith

theorem center_in_root (t : Tree) (v : Valid t) {b : ℕ} (hb : b < t.nboxes) :
    ∀ i, i < t.dims → |t.centers b i - t.centers 0 i| ≤ t.root_extent / 2 := by
  intro i hi
  have h := center_ancestor_bound t v hb (t.box_levels b) le_rfl i hi
  rw [ancestor_root t v hb] at h
  have h0 : levelToSize t (t.box_levels b - t.box_levels b) = t.root_extent := by
    simp [levelToSize]
  rw [h0] at h
  have hsz := levelToSize_nonneg t (le_of_lt v.re_pos) (t.box_levels b)
  linarith

theorem adj_ancestor (t : Tree) (v : Valid t) {S : ℕ} (hS : S < t.nboxes)
    (c : ℕ → ℚ) (lvl : ℕ)
    (hadj : is_adjacent_or_overlapping t c lvl S = true)
    {k : ℕ} (hk : k ≤ t.box_levels S) :
    is_adjacent_or_overlapping t c lvl (ancestor t S k) = true := by
  rw [adj_iff, maxDist_le_iff] at hadj ⊢
  obtain ⟨hpos, hbound⟩ := hadj
  have hre := le_of_lt v.re_pos
  have hlevA := ancestor_level t v hS k hk
  rw [hlevA]
  have hsz1 := levelToSize_nonneg t hre lvl
  have hsz2 := levelToSize_nonneg t hre (t.box_levels S - k)
  have hsz3 := levelToSize_nonneg t hre (max lvl (t.box_levels S - k))
  have hmono : levelToSize t (max lvl (t.box_levels S))
      ≤ levelToSize t (max lvl (t.box_levels S - k)) := by
    apply levelToSize_antitone t hre
    omega
  have hshrink : levelToSize t (t.box_levels S) ≤ levelToSize t (t.box_levels S - k) := by
    apply levelToSize_antitone t hre
    omega
  constructor
  · positivity
  · intro i hi
    have h1 := hbound i hi
    have h2 := center_ancestor_bound t v hS k hk i hi
    have htri := abs_sub_le (c i) (t.centers S i) (t.centers (ancestor t S k) i)
    linarith

theorem adj_root (t : Tree) (hroot : t.box_levels 0 = 0) (hre : 0 ≤ t.root_extent)
    (c : ℕ → ℚ) (lvl : ℕ)
    (hc : ∀ i, i < t.dims → |c i - t.centers 0 i| ≤ t.root_extent / 2) :
    is_adjacent_or_overlapping t c lvl 0 = true := by
  rw [adj_iff, maxDist_le_iff, hroot, Nat.max_zero, levelToSize_zero]
  have h1 := levelToSize_nonneg t hre lvl
  constructor
  · positivity
  · intro i hi
    have := hc i hi
    linarith

theorem adj_sibling (t : Tree) (v : Valid t) {b x : ℕ} (hb : b < t.nboxes) (hb0 : b ≠ 0)
    {m : ℕ} (hm : m < nchildren t)
    (hx : t.box_child_ids m (t.box_parent_ids b) = x) (hx0 : x ≠ 0) :
    is_adjacent_or_overlapping t (t.centers b) (t.box_levels b) x = true := by
  have hre := le_of_lt v.re_pos
  have hplt := v.parent_lt b hb
  have hpl := parent_level t v hb hb0
  have hxc := v.child_center m hm _ hplt (by rw [hx]; exact hx0)
  rw [hx] at hxc
  obtain ⟨m0, hm0, hc0⟩ := v.parent_child b hb hb0
  have hbc := v.child_center m0 hm0 _ hplt (by rw [hc0]; exact hb0)
  rw [hc0] at hbc
  have hxlev := v.child_level m hm _ hplt (by rw [hx]; exact hx0)
  rw [hx] at hxlev
  have hxlev2 : t.box_levels x = t.box_levels b := by omega
  rw [adj_iff, maxDist_le_iff, hxlev2, max_self]
  have hsz := levelToSize_nonneg t hre (t.box_levels b)
  constructor
  · positivity
  · intro i hi
    have h1 := hxc i hi
    have h2 := hbc i hi
    have htri := abs_sub_le (t.centers b i) (t.centers (t.box_parent_ids b) i) (t.centers x i)
    have hstep : levelToSize t (t.box_levels (t.box_parent_ids b) + 1)
        = levelToSize t (t.box_levels b) := by
      rw [hpl]
    rw [hstep] at h1 h2
    rw [abs_sub_comm] at h1
    linarith

theorem colleaguesGo_sound (t : Tree) (v : Valid t) (box_id lvl : ℕ) :
    ∀ fuel wb wl, wb < t.nboxes → t.box_levels wb = wl →
      ∀ x ∈ colleaguesGo t box_id lvl fuel wb wl,
        x < t.nboxes ∧ x ≠ 0 ∧ t.box_levels x = lvl ∧ x ≠ box_id ∧
          is_adjacent_or_overlapping t (t.centers box_id) lvl x = true := by
  intro fuel
  induction fuel with
  | zero =>
    intro wb wl _ _ x hx
    simp [colleaguesGo] at hx
  | succ fuel ih =>
    intro wb wl hwb hwl x hx
    simp only [colleaguesGo, List.mem_flatMap, List.mem_range] at hx
    obtain ⟨m, hm, hx⟩ := hx
    by_cases h0 : t.box_child_ids m wb ≠ 0
    · rw [if_pos h0] at hx
      by_cases hadj :
          is_adjacent_or_overlapping t (t.centers box_id) lvl (t.box_child_ids m wb) = true
      · rw [if_pos hadj] at hx
        have hlt := v.child_lt m hm wb hwb h0
        have hlev := v.child_level m hm wb hwb h0
        by_cases hemit : wl + 1 = lvl ∧ t.box_child_ids m wb ≠ box_id
        · rw [if_pos hemit] at hx
          rw [List.mem_singleton] at hx
          subst hx
          exact ⟨hlt, h0, by omega, hemit.2, hadj⟩
        · rw [if_neg hemit] at hx
          exact ih (t.box_child_ids m wb) (wl + 1) hlt (by omega) x hx
      · rw [if_neg hadj] at hx
        cases hx
    · rw [if_neg h0] at hx
      cases hx

theorem colleaguesGo_complete (t : Tree) (v : Valid t) (box_id lvl : ℕ) {x : ℕ}
    (hx : x < t.nboxes) (hx0 : x ≠ 0) (hxb : x ≠ box_id) (hlvl : t.box_levels x = lvl) :
    ∀ k fuel, 1 ≤ k → k ≤ fuel → k ≤ lvl →
      (∀ j, j < k → is_adjacent_or_overlapping t (t.centers box_id) lvl
        (ancestor t x j) = true) →
      x ∈ colleaguesGo t box_id lvl fuel (ancestor t x k) (lvl - k) := by
  intro k
  induction k with
  | zero =>
    intro fuel h1 _ _ _
    omega
  | succ k ih =>
    intro fuel _ hfuel hklvl hadj
    obtain ⟨f, rfl⟩ : ∃ f, fuel = f + 1 := ⟨fuel - 1, by omega⟩
    have hxlvl : k + 1 ≤ t.box_levels x := by omega
    have hanck_lt : ancestor t x k < t.nboxes := ancestor_lt t v hx k
    have hanck_ne : ancestor t x k ≠ 0 := ancestor_ne_zero t v hx (by omega)
    obtain ⟨m, hm, hc⟩ := v.parent_child _ hanck_lt hanck_ne
    have hpar : t.box_parent_ids (ancestor t x k) = ancestor t x (k + 1) := rfl
    rw [hpar] at hc
    simp only [colleaguesGo, List.mem_flatMap, List.mem_range]
    refine ⟨m, hm, ?_⟩
    rw [hc]
    have hne : ancestor t x k ≠ 0 := hanck_ne
    rw [if_pos hne, if_pos (hadj k (by omega))]
    by_cases hk0 : k = 0
    · -- k = 0: the child is x itself, emitted as a colleague
      subst hk0
      have hx_anc : ancestor t x 0 = x := rfl
      rw [hx_anc]
      rw [if_pos ⟨by omega, hxb⟩]
      exact List.mem_singleton.mpr rfl
    · -- k ≥ 1: descend into the ancestor
      have hk1 : 1 ≤ k := by omega
      have hcond : ¬(lvl - (k + 1) + 1 = lvl ∧ ancestor t x k ≠ box_id) := by
        intro hcon
        omega
      rw [if_neg hcond]
      have hstep : lvl - (k + 1) + 1 = lvl - k := by omega
      rw [hstep]
      exact ih f hk1 (by omega) (by omega) fun j hj => hadj j (by omega)

theorem mem_colleagues_iff (t : Tree) (v : Valid t) {A x : ℕ} (hA : A < t.nboxes) :
    x ∈ colleagues t A ↔
      A ≠ 0 ∧ x ≠ 0 ∧ x < t.nboxes ∧ x ≠ A ∧ t.box_levels x = t.box_levels A ∧
        is_adjacent_or_overlapping t (t.centers A) (t.box_levels A) x = true := by
  unfold colleagues
  by_cases hA0 : A = 0
  · simp [hA0]
  · rw [if_neg hA0]
    constructor
    · intro hx
      have h := colleaguesGo_sound t v A (t.box_levels A) t.nlevels 0 0
        v.nboxes_pos v.root_level x hx
      exact ⟨hA0, h.2.1, h.1, h.2.2.2.1, h.2.2.1, h.2.2.2.2⟩
    · rintro ⟨-, hx0, hxlt, hxA, hxlev, hadj⟩
      have hlvl_pos : 0 < t.box_levels x := level_pos_of_ne_zero t v hxlt hx0
      have hroot : ancestor t x (t.box_levels A) = 0 := by
        rw [← hxlev]
        exact ancestor_root t v hxlt
      have h := colleaguesGo_complete t v A (t.box_levels A) hxlt hx0 hxA hxlev
        (t.box_levels A) t.nlevels (by omega)
        (by have := v.levels_lt x hxlt; omega) le_rfl
        (fun j hj => adj_ancestor t v hxlt (t.centers A) (t.box_levels A) hadj
          (by omega))
      rw [hroot] at h
      have hz : t.box_levels A - t.box_levels A = 0 := by omega
      rw [hz] at h
      exact h

theorem neighborGo_desc (t : Tree) (v : Valid t) (c : ℕ → ℚ) (lvl : ℕ) :
    ∀ fuel wb, wb < t.nboxes →
      ∀ x ∈ neighborGo t c lvl fuel wb,
        x < t.nboxes ∧ ∃ m, m < nchildren t ∧ t.box_child_ids m wb ≠ 0 ∧
          t.box_levels wb + 1 ≤ t.box_levels x ∧
          ancestor t x (t.box_levels x - (t.box_levels wb + 1)) = t.box_child_ids m wb := by
  intro fuel
  induction fuel with
  | zero =>
    intro wb _ x hx
    simp [neighborGo] at hx
  | succ fuel ih =>
    intro wb hwb x hx
    simp only [neighborGo, List.mem_flatMap, List.mem_range] at hx
    obtain ⟨m, hm, hx⟩ := hx
    by_cases h0 : t.box_child_ids m wb ≠ 0
    · rw [if_pos h0] at hx
      by_cases hadj : is_adjacent_or_overlapping t c lvl (t.box_child_ids m wb) = true
      · rw [if_pos hadj] at hx
        rw [List.mem_append] at hx
        have hlt := v.child_lt m hm wb hwb h0
        have hlev := v.child_level m hm wb hwb h0
        rcases hx with hx | hx
        · by_cases hos : t.hasOwnSources (t.box_child_ids m wb) = true
          · rw [if_pos hos, List.mem_singleton] at hx
            subst hx
            refine ⟨hlt, m, hm, h0, by omega, ?_⟩
            have hz : t.box_levels (t.box_child_ids m wb) - (t.box_levels wb + 1) = 0 := by
              omega
            rw [hz]
            rfl
          · rw [if_neg hos] at hx
            cases hx
        · by_cases hcs : t.hasChildSources (t.box_child_ids m wb) = true
          · rw [if_pos hcs] at hx
            obtain ⟨hxlt, m2, hm2, h02, hlev2, hanc2⟩ := ih _ hlt x hx
            refine ⟨hxlt, m, hm, h0, by omega, ?_⟩
            have hd : t.box_levels x - (t.box_levels wb + 1)
                = (t.box_levels x - (t.box_levels (t.box_child_ids m wb) + 1)) + 1 := by
              omega
            rw [hd]
            show t.box_parent_ids
              (ancestor t x (t.box_levels x - (t.box_levels (t.box_child_ids m wb) + 1)))
              = t.box_child_ids m wb
            rw [hanc2]
            exact v.child_parent m2 hm2 _ hlt h02
          · rw [if_neg hcs] at hx
            cases hx
      · rw [if_neg hadj] at hx
        cases hx
    · rw [if_neg h0] at hx
      cases hx

theorem neighborGo_nodup (t : Tree) (v : Valid t) (c : ℕ → ℚ) (lvl : ℕ) :
    ∀ fuel wb, wb < t.nboxes → (neighborGo t c lvl fuel wb).Nodup := by
  intro fuel
  induction fuel with
  | zero =>
    intro wb _
    simp [neighborGo]
  | succ fuel ih =>
    intro wb hwb
    have hbranch : ∀ m, m < nchildren t →
        ∀ x ∈ (if t.box_child_ids m wb ≠ 0 then
            if is_adjacent_or_overlapping t c lvl (t.box_child_ids m wb) then
              (if t.hasOwnSources (t.box_child_ids m wb) then [t.box_child_ids m wb] else []) ++
                (if t.hasChildSources (t.box_child_ids m wb) then
                  neighborGo t c lvl fuel (t.box_child_ids m wb) else [])
            else []
          else []),
        t.box_child_ids m wb ≠ 0 ∧ t.box_levels wb + 1 ≤ t.box_levels x ∧
          ancestor t x (t.box_levels x - (t.box_levels wb + 1)) = t.box_child_ids m wb := by
      intro m hm x hx
      by_cases h0 : t.box_child_ids m wb ≠ 0
      · rw [if_pos h0] at hx
        by_cases hadj : is_adjacent_or_overlapping t c lvl (t.box_child_ids m wb) = true
        · rw [if_pos hadj] at hx
          rw [List.mem_append] at hx
          have hlt := v.child_lt m hm wb hwb h0
          have hlev := v.child_level m hm wb hwb h0
          rcases hx with hx | hx
          · by_cases hos : t.hasOwnSources (t.box_child_ids m wb) = true
            · rw [if_pos hos, List.mem_singleton] at hx
              subst hx
              refine ⟨h0, by omega, ?_⟩
              have hz : t.box_levels (t.box_child_ids m wb) - (t.box_levels wb + 1) = 0 := by
                omega
              rw [hz]
              rfl
            · rw [if_neg hos] at hx
              cases hx
          · by_cases hcs : t.hasChildSources (t.box_child_ids m wb) = true
            · rw [if_pos hcs] at hx
              obtain ⟨hxlt, m2, hm2, h02, hlev2, hanc2⟩ := neighborGo_desc t v c lvl fuel _ hlt x hx
              refine ⟨h0, by omega, ?_⟩
              have hd : t.box_levels x - (t.box_levels wb + 1)
                  = (t.box_levels x - (t.box_levels (t.box_child_ids m wb) + 1)) + 1 := by
                omega
              rw [hd]
              show t.box_parent_ids
                (ancestor t x (t.box_levels x - (t.box_levels (t.box_child_ids m wb) + 1)))
                = t.box_child_ids m wb
              rw [hanc2]
              exact v.child_parent m2 hm2 _ hlt h02
            · rw [if_neg hcs] at hx
              cases hx
        · rw [if_neg hadj] at hx
          cases hx
      · rw [if_neg h0] at hx
        cases hx
    simp only [neighborGo]
    apply List.nodup_flatMap.mpr
    constructor
    · intro m hm
      rw [List.mem_range] at hm
      by_cases h0 : t.box_child_ids m wb ≠ 0
      · rw [if_pos h0]
        by_cases hadj : is_adjacent_or_overlapping t c lvl (t.box_child_ids m wb) = true
        · rw [if_pos hadj]
          have hlt := v.child_lt m hm wb hwb h0
          have hlev := v.child_level m hm wb hwb h0
          apply List.Nodup.append
          · by_cases hos : t.hasOwnSources (t.box_child_ids m wb) = true
            · rw [if_pos hos]
              exact List.nodup_singleton _
            · rw [if_neg hos]
              exact List.nodup_nil
          · by_cases hcs : t.hasChildSources (t.box_child_ids m wb) = true
            · rw [if_pos hcs]
              exact ih _ hlt
            · rw [if_neg hcs]
              exact List.nodup_nil
          · intro a ha hb
            by_cases hos : t.hasOwnSources (t.box_child_ids m wb) = true
            · rw [if_pos hos, List.mem_singleton] at ha
              subst ha
              by_cases hcs : t.hasChildSources (t.box_child_ids m wb) = true
              · rw [if_pos hcs] at hb
                obtain ⟨-, m2, hm2, h02, hlev2, -⟩ := neighborGo_desc t v c lvl fuel _ hlt _ hb
                omega
              · rw [if_neg hcs] at hb
                cases hb
            · rw [if_neg hos] at ha
              cases ha
        · rw [if_neg hadj]
          exact List.nodup_nil
      · rw [if_neg h0]
        exact List.nodup_nil
    · refine List.Pairwise.imp_of_mem ?_ (List.pairwise_lt_range _)
      intro a b ha hb hab
      rw [List.mem_range] at ha hb
      intro x hxa hxb
      obtain ⟨h0a, hleva, hanca⟩ := hbranch a ha x hxa
      obtain ⟨h0b, hlevb, hancb⟩ := hbranch b hb x hxb
      have heq : t.box_child_ids a wb = t.box_child_ids b wb := by
        rw [← hanca, ← hancb]
      exact absurd heq (v.child_slot_inj a ha b hb wb hwb ⟨Nat.ne_of_lt hab, h0a⟩)

theorem anc_childSources (t : Tree) (v : Valid t) {S : ℕ} (hS : S < t.nboxes)
    (hsrc : t.hasOwnSources S = true) :
    ∀ j, 1 ≤ j → j ≤ t.box_levels S → t.hasChildSources (ancestor t S j) = true := by
  intro j
  induction j with
  | zero => omega
  | succ j ih =>
    intro _ hle
    have hlt := ancestor_lt t v hS j
    have hne : ancestor t S j ≠ 0 := ancestor_ne_zero t v hS (by omega)
    obtain ⟨m, hm, hc⟩ := v.parent_child _ hlt hne
    have hgoal := v.child_sources m hm _ (v.parent_lt _ hlt) (by rw [hc]; exact hne)
    rw [hc] at hgoal
    show t.hasChildSources (t.box_parent_ids (ancestor t S j)) = true
    apply hgoal
    by_cases hj : j = 0
    · subst hj
      exact Or.inl hsrc
    · exact Or.inr (ih (by omega) (by omega))

theorem neighborGo_complete (t : Tree) (v : Valid t) (c : ℕ → ℚ) (lvl : ℕ) {S : ℕ}
    (hS : S < t.nboxes) (hS0 : S ≠ 0) (hsrc : t.hasOwnSources S = true) :
    ∀ k fuel, 1 ≤ k → k ≤ fuel → k ≤ t.box_levels S →
      (∀ j, j < k → is_adjacent_or_overlapping t c lvl (ancestor t S j) = true) →
      (∀ j, 1 ≤ j → j < k → t.hasChildSources (ancestor t S j) = true) →
      S ∈ neighborGo t c lvl fuel (ancestor t S k) := by
  intro k
  induction k with
  | zero =>
    intro fuel h1 _ _ _ _
    omega
  | succ k ih =>
    intro fuel _ hfuel hklvl hadj hcs
    obtain ⟨f, rfl⟩ : ∃ f, fuel = f + 1 := ⟨fuel - 1, by omega⟩
    have hanck_lt : ancestor t S k < t.nboxes := ancestor_lt t v hS k
    have hanck_ne : ancestor t S k ≠ 0 := ancestor_ne_zero t v hS (by omega)
    obtain ⟨m, hm, hc⟩ := v.parent_child _ hanck_lt hanck_ne
    have hpar : t.box_parent_ids (ancestor t S k) = ancestor t S (k + 1) := rfl
    rw [hpar] at hc
    simp only [neighborGo, List.mem_flatMap, List.mem_range]
    refine ⟨m, hm, ?_⟩
    rw [hc]
    rw [if_pos hanck_ne, if_pos (hadj k (by omega))]
    rw [List.mem_append]
    by_cases hk0 : k = 0
    · subst hk0
      left
      have hx_anc : ancestor t S 0 = S := rfl
      rw [hx_anc, if_pos hsrc]
      exact List.mem_singleton.mpr rfl
    · right
      rw [if_pos (hcs k (by omega) (by omega))]
      exact ih f (by omega) (by omega) (by omega)
        (fun j hj => hadj j (by omega)) (fun j h1 hj => hcs j h1 (by omega))

theorem parent_ne_self (t : Tree) (v : Valid t) {B : ℕ} (hB : B < t.nboxes) (hB0 : B ≠ 0) :
    t.box_parent_ids B ≠ B := by
  intro he
  have hp := parent_level t v hB hB0
  rw [he] at hp
  omega

theorem sep_siblings_mem_char (t : Tree) (v : Valid t) {B : ℕ} (hB : B < t.nboxes)
    (hB0 : B ≠ 0) (x : ℕ) :
    x ∈ sep_siblings t B ↔
      x ≠ 0 ∧ is_adjacent_or_overlapping t (t.centers B) (t.box_levels B) x = false ∧
        ∃ P, (P ∈ colleagues t (t.box_parent_ids B) ∨ P = t.box_parent_ids B) ∧
          ∃ m, m < nchildren t ∧ t.box_child_ids m P = x := by
  have hpne := parent_ne_self t v hB hB0
  unfold sep_siblings
  rw [if_neg hpne]
  constructor
  · intro hx
    rw [List.mem_flatMap] at hx
    obtain ⟨P, hP, hx⟩ := hx
    rw [List.mem_flatMap] at hx
    obtain ⟨m, hm, hx⟩ := hx
    rw [List.mem_range] at hm
    by_cases hsep :
        ¬ is_adjacent_or_overlapping t (t.centers B) (t.box_levels B)
          (t.box_child_ids m P) = true
    · rw [if_pos hsep] at hx
      rw [List.mem_singleton] at hx
      subst hx
      have hadjf : is_adjacent_or_overlapping t (t.centers B) (t.box_levels B)
          (t.box_child_ids m P) = false := by
        cases h : is_adjacent_or_overlapping t (t.centers B) (t.box_levels B)
          (t.box_child_ids m P)
        · rfl
        · exact absurd h hsep
      refine ⟨?_, hadjf, P, Or.inl hP, m, hm, rfl⟩
      intro h0
      rw [h0] at hadjf
      have hroot := adj_root t v.root_level (le_of_lt v.re_pos) (t.centers B)
        (t.box_levels B) (center_in_root t v hB)
      rw [hroot] at hadjf
      cases hadjf
    · rw [if_neg hsep] at hx
      cases hx
  · rintro ⟨hx0, hadjf, P, hPor, m, hm, hchild⟩
    rcases hPor with hP | hP
    · rw [List.mem_flatMap]
      refine ⟨P, hP, ?_⟩
      rw [List.mem_flatMap]
      refine ⟨m, List.mem_range.mpr hm, ?_⟩
      rw [hchild]
      rw [if_pos (by rw [hadjf]; simp)]
      exact List.mem_singleton.mpr rfl
    · subst hP
      have hadj := adj_sibling t v hB hB0 hm hchild hx0
      rw [hadj] at hadjf
      cases hadjf

theorem sep_bigger_sound (t : Tree) (v : Valid t) {A : ℕ} (hA : A < t.nboxes) :
    ∀ K ∈ sep_bigger_nonsiblings t A,
      K < t.nboxes ∧ t.box_levels K < t.box_levels A ∧
        is_adjacent_or_overlapping t (t.centers A) (t.box_levels A) K = false ∧
        t.hasOwnSources K = true ∧
        ∀ j, 1 ≤ j → j ≤ t.box_levels A →
          is_adjacent_or_overlapping t (t.centers K) (t.box_levels K)
            (ancestor t A j) = true := by
  intro K hK
  unfold sep_bigger_nonsiblings at hK
  rw [List.mem_flatMap] at hK
  obtain ⟨j, hjr, hK⟩ := hK
  rw [List.mem_range] at hjr
  by_cases hz : t.box_levels A - (j + 1) = 0
  · rw [if_pos hz] at hK
    cases hK
  · rw [if_neg hz] at hK
    rw [List.mem_flatMap] at hK
    obtain ⟨Kc, hKc, hK⟩ := hK
    have hanc_lt : ancestor t A (j + 1) < t.nboxes := ancestor_lt t v hA _
    have hanc_lev : t.box_levels (ancestor t A (j + 1)) = t.box_levels A - (j + 1) :=
      ancestor_level t v hA _ (by omega)
    obtain ⟨hanc0, hKc0, hKclt, hKcne, hKclev, hKcadj⟩ :=
      (mem_colleagues_iff t v hanc_lt).mp hKc
    by_cases hguard :
        ¬ is_adjacent_or_overlapping t (t.centers A) (t.box_levels A) Kc = true
          ∧ t.hasOwnSources Kc = true
    · rw [if_pos hguard] at hK
      by_cases hall : ((List.range (j + 1 - 1)).all fun j2 =>
          is_adjacent_or_overlapping t (t.centers Kc) (t.box_levels A - (j + 1))
            (ancestor t A (j2 + 1))) = true
      · rw [if_pos hall] at hK
        rw [List.mem_singleton] at hK
        subst hK
        have hadjf : is_adjacent_or_overlapping t (t.centers A) (t.box_levels A) K = false := by
          cases h : is_adjacent_or_overlapping t (t.centers A) (t.box_levels A) K
          · rfl
          · exact absurd h hguard.1
        have hKlev : t.box_levels K = t.box_levels A - (j + 1) := by
          rw [hKclev, hanc_lev]
        have hbase : is_adjacent_or_overlapping t (t.centers K) (t.box_levels K)
            (ancestor t A (j + 1)) = true := by
          rw [← adj_comm t (ancestor t A (j + 1)) K]
          exact hKcadj
        refine ⟨hKclt, by omega, hadjf, hguard.2, ?_⟩
        intro j2 hj2_1 hj2_le
        rcases Nat.lt_trichotomy j2 (j + 1) with hlt | heq | hgt
        · -- checked by the closer-ancestor loop
          rw [List.all_eq_true] at hall
          have hcheck := hall (j2 - 1) (List.mem_range.mpr (by omega))
          have h1 : j2 - 1 + 1 = j2 := by omega
          rw [h1] at hcheck
          rw [hKlev]
          exact hcheck
        · rw [heq]
          exact hbase
        · -- above the current parent: ancestors of an adjacent box stay adjacent
          have hsplit : ancestor t A j2 = ancestor t (ancestor t A (j + 1)) (j2 - (j + 1)) := by
            rw [← ancestor_add]
            congr 1
            omega
          rw [hsplit]
          exact adj_ancestor t v hanc_lt (t.centers K) (t.box_levels K) hbase
            (by rw [hanc_lev]; omega)
      · rw [if_neg hall] at hK
        cases hK
    · rw [if_neg hguard] at hK
      cases hK

theorem foldl_write_of_not_written (g : ℕ → Option ℕ) (lv : ℕ) :
    ∀ (l : List ℕ) (d : ℕ → ℕ), (∀ i ∈ l, g i ≠ some lv) →
      (l.foldl (fun res i =>
        match g i with
        | some lv2 => fun lv3 => if lv3 = lv2 then i else res lv3
        | none => res) d) lv = d lv := by
  intro l
  induction l with
  | nil =>
    intro d _
    rfl
  | cons a l ih =>
    intro d h
    rw [List.foldl_cons]
    rw [ih _ fun i hi => h i (List.mem_cons_of_mem a hi)]
    cases hga : g a with
    | none => simp only [hga]
    | some lv2 =>
      simp only [hga]
      have : lv ≠ lv2 := by
        intro he
        exact h a (List.mem_cons_self a l) (by rw [hga, he])
      rw [if_neg this]

theorem foldl_write_of_written (g : ℕ → Option ℕ) (lv i0 : ℕ) :
    ∀ (l : List ℕ) (d : ℕ → ℕ), i0 ∈ l → g i0 = some lv →
      (∀ i ∈ l, g i = some lv → i = i0) →
      (l.foldl (fun res i =>
        match g i with
        | some lv2 => fun lv3 => if lv3 = lv2 then i else res lv3
        | none => res) d) lv = i0 := by
  intro l
  induction l with
  | nil =>
    intro d h
    cases h
  | cons a l ih =>
    intro d hmem hg huniq
    rw [List.foldl_cons]
    by_cases hal : i0 ∈ l
    · exact ih _ hal hg fun i hi hgi => huniq i (List.mem_cons_of_mem a hi) hgi
    · have ha : a = i0 := by
        rcases List.mem_cons.mp hmem with h | h
        · exact h.symm
        · exact absurd h hal
      subst ha
      have hnone : ∀ i ∈ l, g i ≠ some lv := by
        intro i hi hgi
        exact hal ((huniq i (List.mem_cons_of_mem a hi) hgi) ▸ hi)
      rw [foldl_write_of_not_written g lv l _ hnone]
      simp only [hg]
      simp

theorem countP_lt_succ_split (t : Tree) (lv : ℕ) (l : List ℕ) :
    l.countP (fun b => decide (t.box_levels b < lv + 1))
      = l.countP (fun b => decide (t.box_levels b < lv))
        + l.countP (fun b => decide (t.box_levels b = lv)) := by
  induction l with
  | nil => rfl
  | cons a l ih =>
    simp only [List.countP_cons, ih]
    rcases Nat.lt_trichotomy (t.box_levels a) lv with h | h | h
    · simp only [decide_eq_true_eq]
      rw [if_pos (by omega), if_pos (by omega), if_neg (by omega)]
      omega
    · simp only [decide_eq_true_eq]
      rw [if_pos (by omega), if_neg (by omega), if_pos (by omega)]
      omega
    · simp only [decide_eq_true_eq]
      rw [if_neg (by omega), if_neg (by omega), if_neg (by omega)]
      omega

theorem sorted_getD_lt_iff (t : Tree) (lv : ℕ) :
    ∀ L : List ℕ, L.Pairwise (fun a b => t.box_levels a ≤ t.box_levels b) →
      ∀ i, i < L.length →
        (t.box_levels (L.getD i 0) < lv
          ↔ i < L.countP (fun b => decide (t.box_levels b < lv))) := by
  intro L
  induction L with
  | nil =>
    intro _ i hi
    simp at hi
  | cons x xs ih =>
    intro hsort i hi
    rw [List.pairwise_cons] at hsort
    obtain ⟨hx, hxs⟩ := hsort
    cases i with
    | zero =>
      rw [List.getD_cons_zero]
      constructor
      · intro h
        rw [List.countP_cons_of_pos _ _ (by simpa using h)]
        omega
      · intro h
        rcases List.countP_pos_iff.mp h with ⟨y, hy, hpy⟩
        rw [decide_eq_true_eq] at hpy
        rcases List.mem_cons.mp hy with rfl | hy2
        · exact hpy
        · exact lt_of_le_of_lt (hx y hy2) hpy
    | succ i =>
      rw [List.getD_cons_succ]
      rw [List.length_cons] at hi
      by_cases hpx : t.box_levels x < lv
      · rw [List.countP_cons_of_pos _ _ (by simpa using hpx)]
        rw [ih hxs i (by omega)]
        omega
      · have h0 : xs.countP (fun b => decide (t.box_levels b < lv)) = 0 := by
          rw [List.countP_eq_zero]
          intro y hy
          simp only [decide_eq_true_eq]
          have := hx y hy
          omega
        rw [List.countP_cons_of_neg _ _ (by simpa using hpx), h0]
        constructor
        · intro h
          have hmem : xs.getD i 0 ∈ xs := by
            rw [List.getD_eq_getElem xs 0 (by omega)]
            exact List.getElem_mem _
          have := hx _ hmem
          omega
        · omega

theorem lsCond_eq_some_iff (t : Tree) (L : List ℕ)
    (hmem : ∀ b ∈ L, b < t.nboxes)
    (hlev : ∀ b ∈ L, t.box_levels b < t.nlevels)
    (hcorr : ∀ b ∈ L, ∀ lv, lv ≤ t.nlevels →
      (t.level_start_box_nrs lv ≤ b ↔ lv ≤ t.box_levels b))
    (i lv : ℕ) (hi1 : 1 ≤ i) (hilen : i < L.length) :
    lsCond t L i = some lv
      ↔ t.box_levels (L.getD i 0) = lv ∧ t.box_levels (L.getD (i - 1) 0) < lv := by
  have hmymem : L.getD i 0 ∈ L := by
    rw [List.getD_eq_getElem L 0 hilen]
    exact List.getElem_mem _
  have hprevmem : L.getD (i - 1) 0 ∈ L := by
    rw [List.getD_eq_getElem L 0 (by omega)]
    exact List.getElem_mem _
  have hmylev := hlev _ hmymem
  unfold lsCond
  constructor
  · intro h
    by_cases hcond : L.getD (i-1) 0 < t.level_start_box_nrs (t.box_levels (L.getD i 0))
        ∧ t.level_start_box_nrs (t.box_levels (L.getD i 0)) ≤ L.getD i 0
    · rw [if_pos hcond] at h
      have hlv : t.box_levels (L.getD i 0) = lv := by
        injection h
      refine ⟨hlv, ?_⟩
      have hc := hcorr _ hprevmem lv (by omega)
      rw [← hlv]
      by_contra hge
      push_neg at hge
      rw [← hlv] at hc
      have := hc.mpr hge
      omega
    · rw [if_neg hcond] at h
      cases h
  · rintro ⟨hlv, hprev⟩
    have hc1 := hcorr _ hmymem lv (by omega)
    have hc2 := hcorr _ hprevmem lv (by omega)
    have hcond : L.getD (i-1) 0 < t.level_start_box_nrs (t.box_levels (L.getD i 0))
        ∧ t.level_start_box_nrs (t.box_levels (L.getD i 0)) ≤ L.getD i 0 := by
      rw [hlv]
      constructor
      · by_contra hge
        push_neg at hge
        have := hc2.mp hge
        omega
      · exact hc1.mpr (by omega)
    rw [if_pos hcond, hlv]

theorem levelStarts_eq_countP (t : Tree) (L : List ℕ)
    (hmem : ∀ b ∈ L, b < t.nboxes)
    (hlev : ∀ b ∈ L, t.box_levels b < t.nlevels)
    (hcorr : ∀ b ∈ L, ∀ lv, lv ≤ t.nlevels →
      (t.level_start_box_nrs lv ≤ b ↔ lv ≤ t.box_levels b))
    (hsort : L.Pairwise (fun a b => t.box_levels a ≤ t.box_levels b))
    (hhead : ∀ b ∈ L.take 1, t.box_levels b = 0) :
    ∀ lv, lv ≤ t.nlevels →
      extract_level_start_box_nrs t L lv
        = L.countP (fun b => decide (t.box_levels b < lv)) := by
  suffices h : ∀ n lv, lv ≤ t.nlevels → t.nlevels - lv = n →
      extract_level_start_box_nrs t L lv
        = L.countP (fun b => decide (t.box_levels b < lv)) by
    intro lv hlv
    exact h _ lv hlv rfl
  intro n
  induction n with
  | zero =>
    intro lv hlv hn
    have he : lv = t.nlevels := by omega
    subst he
    rw [extract_level_start_box_nrs, dif_pos le_rfl]
    symm
    rw [List.countP_eq_length]
    intro b hb
    simp only [decide_eq_true_eq]
    exact hlev b hb
  | succ n ihn =>
    intro lv hlv hn
    rw [extract_level_start_box_nrs, dif_neg (by omega)]
    rw [ihn (lv + 1) (by omega) (by omega)]
    have hmono : L.countP (fun b => decide (t.box_levels b < lv))
        ≤ L.countP (fun b => decide (t.box_levels b < lv + 1)) := by
      apply List.countP_mono_left
      intro b _
      simp only [decide_eq_true_eq]
      omega
    by_cases hlv0 : lv = 0
    · subst hlv0
      unfold lsAfterRoot
      rw [if_pos rfl]
      have h0 : L.countP (fun b => decide (t.box_levels b < 0)) = 0 := by
        rw [List.countP_eq_zero]
        intro b _
        simp
      omega
    · unfold lsAfterRoot
      rw [if_neg hlv0]
      by_cases hocc : ∃ b ∈ L, t.box_levels b = lv
      · -- occupied level: the kernel wrote the first index of level lv
        obtain ⟨b0, hb0mem, hb0lev⟩ := hocc
        obtain ⟨j, hjlen, hjval⟩ := List.mem_iff_getElem.mp hb0mem
        have hsplit := countP_lt_succ_split t lv L
        have hone : 0 < L.countP (fun b => decide (t.box_levels b = lv)) :=
          List.countP_pos_iff.mpr ⟨b0, hb0mem, by simpa using hb0lev⟩
        have hgetj : L.getD j 0 = b0 := by
          rw [List.getD_eq_getElem L 0 hjlen]
          exact hjval
        have hjcnt : ¬ (j < L.countP (fun b => decide (t.box_levels b < lv))) := by
          rw [← sorted_getD_lt_iff t lv L hsort j hjlen, hgetj, hb0lev]
          omega
        have hi0len : L.countP (fun b => decide (t.box_levels b < lv)) < L.length := by
          omega
        have hi0pos : 1 ≤ L.countP (fun b => decide (t.box_levels b < lv)) := by
          have hlen0 : 0 < L.length := by omega
          have hh : t.box_levels (L.getD 0 0) = 0 := by
            apply hhead
            rcases L with - | ⟨x, xs⟩
            · simp at hlen0
            · simp
          have := (sorted_getD_lt_iff t lv L hsort 0 hlen0).mp (by omega)
          omega
        have hlevmy : t.box_levels
            (L.getD (L.countP (fun b => decide (t.box_levels b < lv))) 0) = lv := by
          have hge := sorted_getD_lt_iff t lv L hsort _ hi0len
          have hlt := sorted_getD_lt_iff t (lv + 1) L hsort _ hi0len
          have h1 : ¬ t.box_levels
              (L.getD (L.countP (fun b => decide (t.box_levels b < lv))) 0) < lv := by
            rw [hge]
            omega
          have h2 : t.box_levels
              (L.getD (L.countP (fun b => decide (t.box_levels b < lv))) 0) < lv + 1 := by
            rw [hlt]
            omega
          omega
        have hlevprev : t.box_levels
            (L.getD (L.countP (fun b => decide (t.box_levels b < lv)) - 1) 0) < lv := by
          rw [sorted_getD_lt_iff t lv L hsort _ (by omega)]
          omega
        have hwrote : lsCond t L (L.countP (fun b => decide (t.box_levels b < lv)))
            = some lv := by
          rw [lsCond_eq_some_iff t L hmem hlev hcorr _ lv hi0pos hi0len]
          exact ⟨hlevmy, hlevprev⟩
        have huniq : ∀ i ∈ List.range' 1 (L.length - 1), lsCond t L i = some lv →
            i = L.countP (fun b => decide (t.box_levels b < lv)) := by
          intro i hir hcondi
          rw [List.mem_range'_1] at hir
          have hilen : i < L.length := by omega
          rw [lsCond_eq_some_iff t L hmem hlev hcorr i lv (by omega) hilen] at hcondi
          obtain ⟨hmyl, hprevl⟩ := hcondi
          have hc1 : ¬ (i < L.countP (fun b => decide (t.box_levels b < lv))) := by
            rw [← sorted_getD_lt_iff t lv L hsort i hilen]
            omega
          have hc2 : i - 1 < L.countP (fun b => decide (t.box_levels b < lv)) := by
            rw [← sorted_getD_lt_iff t lv L hsort (i - 1) (by omega)]
            exact hprevl
          omega
        have hker : lsKernel t L lv = L.countP (fun b => decide (t.box_levels b < lv)) := by
          unfold lsKernel
          apply foldl_write_of_written
          · rw [List.mem_range'_1]
            omega
          · exact hwrote
          · exact huniq
        rw [hker]
        omega
      · -- unoccupied level: the kernel kept the fill value, the clamp collapses it
        push_neg at hocc
        have hnone : ∀ i ∈ List.range' 1 (L.length - 1), lsCond t L i ≠ some lv := by
          intro i hir hcondi
          rw [List.mem_range'_1] at hir
          have hilen : i < L.length := by omega
          rw [lsCond_eq_some_iff t L hmem hlev hcorr i lv (by omega) hilen] at hcondi
          have hmymem : L.getD i 0 ∈ L := by
            rw [List.getD_eq_getElem L 0 hilen]
            exact List.getElem_mem _
          exact absurd hcondi.1 (hocc _ hmymem)
        have hker : lsKernel t L lv = L.length := by
          unfold lsKernel
          exact foldl_write_of_not_written _ _ _ _ hnone
        rw [hker]
        have hz : L.countP (fun b => decide (t.box_levels b = lv)) = 0 := by
          rw [List.countP_eq_zero]
          intro b hb
          simpa using hocc b hb
        have hsplit := countP_lt_succ_split t lv L
        have hle := List.countP_le_length (l := L) (fun b => decide (t.box_levels b < lv))
        omega

theorem take_countP_filter (t : Tree) (lv : ℕ) :
    ∀ M : List ℕ, M.Pairwise (fun a b => t.box_levels a ≤ t.box_levels b) →
      (∀ y ∈ M, lv ≤ t.box_levels y) →
      M.take (M.countP (fun b => decide (t.box_levels b < lv + 1)))
        = M.filter (fun b => decide (t.box_levels b = lv)) := by
  intro M
  induction M with
  | nil =>
    intro _ _
    simp
  | cons x xs ih =>
    intro hsort hge
    rw [List.pairwise_cons] at hsort
    by_cases hx : t.box_levels x = lv
    · rw [List.countP_cons_of_pos _ _ (by simp only [decide_eq_true_eq]; omega)]
      rw [List.take_succ_cons]
      rw [List.filter_cons_of_pos (by simpa using hx)]
      congr 1
      exact ih hsort.2 fun y hy => hge y (List.mem_cons_of_mem x hy)
    · have hxgt : lv + 1 ≤ t.box_levels x := by
        have := hge x (List.mem_cons_self x xs)
        omega
      have h0 : (x :: xs).countP (fun b => decide (t.box_levels b < lv + 1)) = 0 := by
        rw [List.countP_eq_zero]
        intro y hy
        simp only [decide_eq_true_eq]
        rcases List.mem_cons.mp hy with rfl | hy2
        · omega
        · have := hsort.1 y hy2
          omega
      rw [h0, List.take_zero]
      symm
      rw [List.filter_eq_nil_iff]
      intro y hy
      simp only [decide_eq_true_eq]
      rcases List.mem_cons.mp hy with rfl | hy2
      · exact hx
      · have := hsort.1 y hy2
        omega

theorem slice_eq_filter (t : Tree) (lv : ℕ) :
    ∀ L : List ℕ, L.Pairwise (fun a b => t.box_levels a ≤ t.box_levels b) →
      (L.take (L.countP (fun b => decide (t.box_levels b < lv + 1)))).drop
        (L.countP (fun b => decide (t.box_levels b < lv)))
      = L.filter (fun b => decide (t.box_levels b = lv)) := by
  intro L
  induction L with
  | nil =>
    intro _
    simp
  | cons x xs ih =>
    intro hsort
    rw [List.pairwise_cons] at hsort
    rcases Nat.lt_trichotomy (t.box_levels x) lv with hx | hx | hx
    · rw [List.countP_cons_of_pos _ _ (by simp only [decide_eq_true_eq]; omega),
        List.countP_cons_of_pos _ _ (by simp only [decide_eq_true_eq]; omega)]
      rw [List.take_succ_cons, List.drop_succ_cons]
      rw [List.filter_cons_of_neg (by simp only [decide_eq_true_eq]; omega)]
      exact ih hsort.2
    · rw [List.countP_cons_of_neg _ _ (by simp only [decide_eq_true_eq]; omega),
        List.countP_cons_of_pos _ _ (by simp only [decide_eq_true_eq]; omega)]
      have h0 : xs.countP (fun b => decide (t.box_levels b < lv)) = 0 := by
        rw [List.countP_eq_zero]
        intro y hy
        simp only [decide_eq_true_eq]
        have := hsort.1 y hy
        omega
      rw [h0, List.take_succ_cons, List.drop_zero]
      rw [List.filter_cons_of_pos (by simpa using hx)]
      congr 1
      exact take_countP_filter t lv xs hsort.2 fun y hy => by
        have := hsort.1 y hy
        omega
    · have hall0 : ∀ (p : ℕ → Bool), (∀ y ∈ x :: xs, p y = false) →
          (x :: xs).countP p = 0 := by
        intro p hp
        rw [List.countP_eq_zero]
        intro y hy
        rw [hp y hy]
        simp
      have hc1 : (x :: xs).countP (fun b => decide (t.box_levels b < lv + 1)) = 0 := by
        apply hall0
        intro y hy
        simp only [decide_eq_false_iff_not]
        rcases List.mem_cons.mp hy with rfl | hy2
        · omega
        · have := hsort.1 y hy2
          omega
      have hc2 : (x :: xs).countP (fun b => decide (t.box_levels b < lv)) = 0 := by
        apply hall0
        intro y hy
        simp only [decide_eq_false_iff_not]
        rcases List.mem_cons.mp hy with rfl | hy2
        · omega
        · have := hsort.1 y hy2
          omega
      rw [hc1, hc2, List.take_zero, List.drop_zero]
      symm
      rw [List.filter_eq_nil_iff]
      intro y hy
      simp only [decide_eq_true_eq]
      rcases List.mem_cons.mp hy with rfl | hy2
      · omega
      · have := hsort.1 y hy2
        omega

theorem filter_lt_succ_append (t : Tree) (lv : ℕ) :
    ∀ L : List ℕ, L.Pairwise (fun a b => t.box_levels a ≤ t.box_levels b) →
      L.filter (fun b => decide (t.box_levels b < lv + 1))
        = L.filter (fun b => decide (t.box_levels b < lv))
          ++ L.filter (fun b => decide (t.box_levels b = lv)) := by
  intro L
  induction L with
  | nil =>
    intro _
    simp
  | cons x xs ih =>
    intro hsort
    rw [List.pairwise_cons] at hsort
    rcases Nat.lt_trichotomy (t.box_levels x) lv with hx | hx | hx
    · rw [List.filter_cons_of_pos (by simp only [decide_eq_true_eq]; omega),
        List.filter_cons_of_pos (by simp only [decide_eq_true_eq]; omega),
        List.filter_cons_of_neg (by simp only [decide_eq_true_eq]; omega)]
      rw [ih hsort.2, List.cons_append]
    · rw [List.filter_cons_of_pos (by simp only [decide_eq_true_eq]; omega),
        List.filter_cons_of_neg (by simp only [decide_eq_true_eq]; omega),
        List.filter_cons_of_pos (by simpa using hx)]
      have h0 : xs.filter (fun b => decide (t.box_levels b < lv)) = [] := by
        rw [List.filter_eq_nil_iff]
        intro y hy
        simp only [decide_eq_true_eq]
        have := hsort.1 y hy
        omega
      rw [h0, List.nil_append]
      congr 1
      apply List.filter_congr
      intro y hy
      have := hsort.1 y hy
      simp only [decide_eq_true_eq, decide_eq_decide]
      omega
    · rw [List.filter_cons_of_neg (by simp only [decide_eq_true_eq]; omega),
        List.filter_cons_of_neg (by simp only [decide_eq_true_eq]; omega),
        List.filter_cons_of_neg (by simp only [decide_eq_true_eq]; omega)]
      exact ih hsort.2

theorem flatMap_filter_levels (t : Tree) (L : List ℕ)
    (hsort : L.Pairwise (fun a b => t.box_levels a ≤ t.box_levels b)) :
    ∀ n, (List.range n).flatMap (fun lv => L.filter fun b => decide (t.box_levels b = lv))
      = L.filter fun b => decide (t.box_levels b < n) := by
  intro n
  induction n with
  | zero =>
    simp
  | succ n ih =>
    rw [show List.range (n + 1) = List.range n ++ [n] by simpa using List.range_succ (n := n)]
    rw [List.flatMap_append, ih]
    have hsing : [n].flatMap (fun lv => L.filter fun b => decide (t.box_levels b = lv))
        = L.filter fun b => decide (t.box_levels b = n) := by
      simp
    rw [hsing]
    exact (filter_lt_succ_append t n L hsort).symm

theorem specSize_eq_levelToSize (t : Tree) (l : ℕ) : specSize t l = levelToSize t l := by
  unfold specSize levelToSize
  rw [zpow_neg, zpow_natCast, mul_one, div_eq_mul_inv]

/-- Claim C2: the adjacency predicate holds exactly when the L-infinity distance
of the two centers is at most half the sum of the two box sizes plus half the
size of the box at the deeper (max) level, with `size(l) = root_extent * 2^(-l)`. -/
theorem C2_adjacency_formula (t : Tree) (c : ℕ → ℚ) (lA B : ℕ) (hd : 0 < t.dims) :
    is_adjacent_or_overlapping t c lA B = true ↔
      (Finset.range t.dims).sup' (Finset.nonempty_range_iff.mpr hd.ne')
          (fun i => |c i - t.centers B i|)
        ≤ 1/2 * (specSize t lA + specSize t (t.box_levels B))
          + 1/2 * specSize t (max lA (t.box_levels B)) := by
  rw [adj_iff, maxDist_le_iff,
    specSize_eq_levelToSize, specSize_eq_levelToSize, specSize_eq_levelToSize]
  constructor
  · rintro ⟨hpos, hall⟩
    rw [Finset.sup'_le_iff]
    intro i hi
    exact hall i (Finset.mem_range.mp hi)
  · intro h
    constructor
    · have h0 : (0:ℚ) ≤ |c 0 - t.centers B 0| := abs_nonneg _
      have hle := Finset.le_sup' (fun i => |c i - t.centers B i|)
        (Finset.mem_range.mpr hd)
      exact le_trans h0 (le_trans hle h)
    · intro i hi
      exact le_trans
        (Finset.le_sup' (fun i => |c i - t.centers B i|) (Finset.mem_range.mpr hi)) h

/-- Claim C2 witness at a concrete tree. -/
theorem C2_adjacency_formula_witness :
    0 < t2.dims ∧
      (is_adjacent_or_overlapping t2 (t2.centers 1) 1 2 = true ↔
        (Finset.range t2.dims).sup'
            (Finset.nonempty_range_iff.mpr (Nat.pos_iff_ne_zero.mp (by decide)))
            (fun i => |t2.centers 1 i - t2.centers 2 i|)
          ≤ 1/2 * (specSize t2 1 + specSize t2 (t2.box_levels 2))
            + 1/2 * specSize t2 (max 1 (t2.box_levels 2))) :=
  ⟨by decide, C2_adjacency_formula t2 (t2.centers 1) 1 2 (by decide)⟩

/-- Claim C5: colleague membership is symmetric, because the adjacency
predicate it is built from is symmetric in its two arguments. -/
theorem C5_colleague_symmetry (t : Tree) (v : Valid t) {A B : ℕ}
    (hA : A < t.nboxes) (hB : B < t.nboxes) :
    B ∈ colleagues t A ↔ A ∈ colleagues t B := by
  rw [mem_colleagues_iff t v hA, mem_colleagues_iff t v hB]
  constructor
  · rintro ⟨hA0, hB0, _, hBA, hlev, hadj⟩
    refine ⟨hB0, hA0, hA, Ne.symm hBA, hlev.symm, ?_⟩
    rw [← adj_comm t A B]
    exact hadj
  · rintro ⟨hB0, hA0, _, hAB, hlev, hadj⟩
    refine ⟨hA0, hB0, hB, Ne.symm hAB, hlev.symm, ?_⟩
    rw [adj_comm t A B]
    exact hadj

/-- Claim C5 witness at a concrete tree. -/
theorem C5_colleague_symmetry_witness :
    Valid t3 ∧ 5 < t3.nboxes ∧ 6 < t3.nboxes ∧
      (6 ∈ colleagues t3 5 ↔ 5 ∈ colleagues t3 6) :=
  ⟨valid_t3, by decide, by decide,
    C5_colleague_symmetry t3 valid_t3 (by decide) (by decide)⟩

/-- Claim C6: every emitted colleague of `A` is at the level of `A` and
distinct from `A`, and the root has no colleagues. -/
theorem C6_colleague_level_self_root (t : Tree) (v : Valid t) {A : ℕ}
    (hA : A < t.nboxes) :
    (∀ x ∈ colleagues t A, t.box_levels x = t.box_levels A ∧ x ≠ A) ∧
      colleagues t 0 = [] := by
  constructor
  · intro x hx
    obtain ⟨-, -, -, hxA, hlev, -⟩ := (mem_colleagues_iff t v hA).mp hx
    exact ⟨hlev, hxA⟩
  · simp [colleagues]

/-- Claim C6 witness at a concrete tree. -/
theorem C6_colleague_level_self_root_witness :
    Valid t3 ∧ 5 < t3.nboxes ∧
      ((∀ x ∈ colleagues t3 5, t3.box_levels x = t3.box_levels 5 ∧ x ≠ 5) ∧
        colleagues t3 0 = []) :=
  ⟨valid_t3, by decide, C6_colleague_level_self_root t3 valid_t3 (by decide)⟩

/-- Claim C1: for a non-root box `B`, `sep_siblings(B)` consists exactly of the
(existing, nonzero) children of the parent-level colleagues of `B` — with the
parent itself allowed as its own colleague, which adds nothing because every
child of `B`'s own parent is adjacent to `B` — that are not
adjacent-or-overlapping to `B`. -/
theorem C1_sep_siblings_characterization (t : Tree) (v : Valid t) {B : ℕ}
    (hB : B < t.nboxes) (hB0 : B ≠ 0) (x : ℕ) :
    x ∈ sep_siblings t B ↔
      x ≠ 0 ∧ is_adjacent_or_overlapping t (t.centers B) (t.box_levels B) x = false ∧
        ∃ P, (P ∈ colleagues t (t.box_parent_ids B) ∨ P = t.box_parent_ids B) ∧
          ∃ m, m < nchildren t ∧ t.box_child_ids m P = x :=
  sep_siblings_mem_char t v hB hB0 x

/-- Claim C1 witness at a concrete tree. -/
theorem C1_sep_siblings_characterization_witness :
    Valid t3 ∧ 5 < t3.nboxes ∧ (5 : ℕ) ≠ 0 ∧
      (2 ∈ sep_siblings t3 5 ↔
        (2 : ℕ) ≠ 0 ∧
          is_adjacent_or_overlapping t3 (t3.centers 5) (t3.box_levels 5) 2 = false ∧
          ∃ P, (P ∈ colleagues t3 (t3.box_parent_ids 5) ∨ P = t3.box_parent_ids 5) ∧
            ∃ m, m < nchildren t3 ∧ t3.box_child_ids m P = 2) :=
  ⟨valid_t3, by decide, by decide,
    C1_sep_siblings_characterization t3 valid_t3 (by decide) (by decide) 2⟩

/-- Claim C10: the adjacency test of any box `B` against box 0 (the root)
succeeds whenever `B`'s center lies inside the root box, so the unguarded
`box_child_ids` reads of the list-2 kernel never emit the non-box id 0. -/
theorem C10_no_zero_in_sep_siblings (t : Tree) {B : ℕ}
    (hroot : t.box_levels 0 = 0) (hre : 0 ≤ t.root_extent)
    (hc : ∀ i, i < t.dims → |t.centers B i - t.centers 0 i| ≤ t.root_extent / 2) :
    is_adjacent_or_overlapping t (t.centers B) (t.box_levels B) 0 = true ∧
      0 ∉ sep_siblings t B := by
  have hadj := adj_root t hroot hre (t.centers B) (t.box_levels B) hc
  refine ⟨hadj, ?_⟩
  intro h0
  unfold sep_siblings at h0
  by_cases hpar : t.box_parent_ids B = B
  · rw [if_pos hpar] at h0
    cases h0
  · rw [if_neg hpar] at h0
    rw [List.mem_flatMap] at h0
    obtain ⟨P, hP, h0⟩ := h0
    rw [List.mem_flatMap] at h0
    obtain ⟨m, hm, h0⟩ := h0
    by_cases hsep : ¬ is_adjacent_or_overlapping t (t.centers B) (t.box_levels B)
        (t.box_child_ids m P) = true
    · rw [if_pos hsep] at h0
      rw [List.mem_singleton] at h0
      rw [← h0] at hsep
      exact hsep hadj
    · rw [if_neg hsep] at h0
      cases h0

/-- Claim C10 witness at a concrete tree. -/
theorem C10_no_zero_in_sep_siblings_witness :
    t3.box_levels 0 = 0 ∧ (0:ℚ) ≤ t3.root_extent ∧
      (∀ i, i < t3.dims → |t3.centers 5 i - t3.centers 0 i| ≤ t3.root_extent / 2) ∧
      (is_adjacent_or_overlapping t3 (t3.centers 5) (t3.box_levels 5) 0 = true ∧
        0 ∉ sep_siblings t3 5) :=
  ⟨rfl, by with_unfolding_all decide, by with_unfolding_all decide,
    C10_no_zero_in_sep_siblings t3 rfl (by with_unfolding_all decide)
      (by with_unfolding_all decide)⟩

/-- Claim C3, amended: every *non-root* box `S` with own sources that is
adjacent-or-overlapping to a target box `T` appears exactly once in the
list-1 output for `T`.  (The root itself is never emitted: the walk only ever
inspects nonzero child slots, so a single-box tree whose root carries sources
is missed — see the counterexample.) -/
theorem C3_list1_exactly_once (t : Tree) (v : Valid t) {T S : ℕ}
    (hT : T < t.nboxes) (htgt : t.hasOwnTargets T = true)
    (hS : S < t.nboxes) (hS0 : S ≠ 0) (hsrc : t.hasOwnSources S = true)
    (hadj : is_adjacent_or_overlapping t (t.centers T) (t.box_levels T) S = true) :
    (neighbor_source_boxes t T).count S = 1 := by
  have hmem : S ∈ neighbor_source_boxes t T := by
    unfold neighbor_source_boxes
    have hroot : ancestor t S (t.box_levels S) = 0 := ancestor_root t v hS
    have hlev_pos : 0 < t.box_levels S := level_pos_of_ne_zero t v hS hS0
    have h := neighborGo_complete t v (t.centers T) (t.box_levels T) hS hS0 hsrc
      (t.box_levels S) t.nlevels hlev_pos (le_of_lt (v.levels_lt S hS)) le_rfl
      (fun j hj => adj_ancestor t v hS _ _ hadj (by omega))
      (fun j h1 hj => anc_childSources t v hS hsrc j h1 (by omega))
    rw [hroot] at h
    exact h
  have hnodup := neighborGo_nodup t v (t.centers T) (t.box_levels T) t.nlevels 0 v.nboxes_pos
  exact List.count_eq_one_of_mem hnodup hmem

/-- Claim C3 witness at a concrete tree (a leaf target and an adjacent leaf
source in the refined quadrant). -/
theorem C3_list1_exactly_once_witness :
    Valid t3 ∧ t3.hasOwnTargets 5 = true ∧ (6 : ℕ) ≠ 0 ∧ t3.hasOwnSources 6 = true ∧
      is_adjacent_or_overlapping t3 (t3.centers 5) (t3.box_levels 5) 6 = true ∧
      (neighbor_source_boxes t3 5).count 6 = 1 :=
  ⟨valid_t3, by decide, by decide, by decide, by with_unfolding_all decide,
    C3_list1_exactly_once t3 valid_t3 (by decide) (by decide) (by decide) (by decide)
      (by decide) (by with_unfolding_all decide)⟩

/-- Claim C3 counterexample: in a single-box tree the root carries sources and
targets and is adjacent to itself, but the list-1 walk emits nothing, so the
root appears zero times instead of exactly once. -/
theorem C3_list1_counterexample :
    Valid t1 ∧ t1.hasOwnTargets 0 = true ∧ t1.hasOwnSources 0 = true ∧
      is_adjacent_or_overlapping t1 (t1.centers 0) (t1.box_levels 0) 0 = true ∧
      (neighbor_source_boxes t1 0).count 0 = 0 :=
  ⟨valid_t1, rfl, rfl, by with_unfolding_all decide, by with_unfolding_all decide⟩

/-- Claim C4: every box emitted into list 4 of `A` is strictly bigger (lower
level), not adjacent-or-overlapping to `A`, has own sources, and every proper
ancestor of `A` (the parent and everything above, in particular every ancestor
strictly above the parent) is adjacent-or-overlapping to it. -/
theorem C4_sep_bigger_sound (t : Tree) (v : Valid t) {A : ℕ} (hA : A < t.nboxes) :
    ∀ K ∈ sep_bigger_nonsiblings t A,
      t.box_levels K < t.box_levels A ∧
        is_adjacent_or_overlapping t (t.centers A) (t.box_levels A) K = false ∧
        t.hasOwnSources K = true ∧
        ∀ j, 1 ≤ j → j ≤ t.box_levels A →
          is_adjacent_or_overlapping t (t.centers K) (t.box_levels K)
            (ancestor t A j) = true := by
  intro K hK
  obtain ⟨-, h2, h3, h4, h5⟩ := sep_bigger_sound t v hA K hK
  exact ⟨h2, h3, h4, h5⟩

/-- Claim C4 witness at a concrete tree (box 5 of the refined quadrant has the
three far level-1 leaves in its list 4). -/
theorem C4_sep_bigger_sound_witness :
    Valid t3 ∧ 5 < t3.nboxes ∧
      ∀ K ∈ sep_bigger_nonsiblings t3 5,
        t3.box_levels K < t3.box_levels 5 ∧
          is_adjacent_or_overlapping t3 (t3.centers 5) (t3.box_levels 5) K = false ∧
          t3.hasOwnSources K = true ∧
          ∀ j, 1 ≤ j → j ≤ t3.box_levels 5 →
            is_adjacent_or_overlapping t3 (t3.centers K) (t3.box_levels K)
              (ancestor t3 5 j) = true :=
  ⟨valid_t3, by decide, C4_sep_bigger_sound t3 valid_t3 (by decide)⟩

/-- Claim C7: for a level-sorted box list headed by the root (as the emitted
`source_parent_boxes` always is), the extracted level starts slice the list
into per-level runs: each slice holds only boxes of its level, and the
concatenation of the slices over all levels is the whole list. -/
theorem C7_level_start_round_trip (t : Tree) (L : List ℕ)
    (hmem : ∀ b ∈ L, b < t.nboxes)
    (hlev : ∀ b ∈ L, t.box_levels b < t.nlevels)
    (hcorr : ∀ b ∈ L, ∀ lv, lv ≤ t.nlevels →
      (t.level_start_box_nrs lv ≤ b ↔ lv ≤ t.box_levels b))
    (hsort : L.Pairwise (fun a b => t.box_levels a ≤ t.box_levels b))
    (hhead : ∀ b ∈ L.take 1, t.box_levels b = 0) :
    (∀ lv, lv < t.nlevels →
      ∀ x ∈ (L.take (extract_level_start_box_nrs t L (lv + 1))).drop
          (extract_level_start_box_nrs t L lv),
        t.box_levels x = lv) ∧
      (List.range t.nlevels).flatMap
        (fun lv => (L.take (extract_level_start_box_nrs t L (lv + 1))).drop
          (extract_level_start_box_nrs t L lv)) = L := by
  have hcnt := levelStarts_eq_countP t L hmem hlev hcorr hsort hhead
  have hslice : ∀ lv, lv < t.nlevels →
      (L.take (extract_level_start_box_nrs t L (lv + 1))).drop
        (extract_level_start_box_nrs t L lv)
      = L.filter fun b => decide (t.box_levels b = lv) := by
    intro lv hlv
    rw [hcnt lv (by omega), hcnt (lv + 1) (by omega)]
    exact slice_eq_filter t lv L hsort
  constructor
  · intro lv hlv x hx
    rw [hslice lv hlv] at hx
    have hm := List.mem_filter.mp hx
    simpa using hm.2
  · have h1 := List.flatMap_congr fun lv hlv => hslice lv (List.mem_range.mp hlv)
    rw [h1, flatMap_filter_levels t L hsort]
    exact List.filter_eq_self.mpr fun b hb => by simpa using hlev b hb

/-- Claim C7 witness at a concrete tree. -/
theorem C7_level_start_round_trip_witness :
    (∀ b ∈ source_parent_boxes t3, b < t3.nboxes) ∧
      (∀ b ∈ source_parent_boxes t3, t3.box_levels b < t3.nlevels) ∧
      ((∀ lv, lv < t3.nlevels →
        ∀ x ∈ ((source_parent_boxes t3).take
            (extract_level_start_box_nrs t3 (source_parent_boxes t3) (lv + 1))).drop
            (extract_level_start_box_nrs t3 (source_parent_boxes t3) lv),
          t3.box_levels x = lv) ∧
        (List.range t3.nlevels).flatMap
          (fun lv => ((source_parent_boxes t3).take
            (extract_level_start_box_nrs t3 (source_parent_boxes t3) (lv + 1))).drop
            (extract_level_start_box_nrs t3 (source_parent_boxes t3) lv))
          = source_parent_boxes t3) :=
  ⟨by decide, by decide,
    C7_level_start_round_trip t3 (source_parent_boxes t3) (by decide) (by decide)
      (by decide) (by decide) (by decide)⟩

/-- Claim C8, amended: the driver performs no dimension validation at all —
its only input check is the pruning flag, so a pruned tree is accepted and
builds a traversal whatever its `dims` field is. -/
theorem C8_only_pruning_validated (t : Tree) :
    (∃ info, buildTraversal t = Except.ok info) ↔ t.is_pruned = true := by
  unfold buildTraversal
  cases hp : t.is_pruned
  · rw [if_neg (by simp)]
    simp
  · rw [if_pos rfl]
    exact iff_of_true ⟨_, rfl⟩ rfl

/-- Claim C8 counterexample: a pruned tree with `dims = 4` (neither 2 nor 3)
is not rejected — the build succeeds and produces a `FMMTraversalInfo`. -/
theorem C8_counterexample :
    t4.dims ≠ 2 ∧ t4.dims ≠ 3 ∧ t4.is_pruned = true ∧
      ∃ info, buildTraversal t4 = Except.ok info :=
  ⟨by decide, by decide, rfl, ⟨_, rfl⟩⟩

/-- Claim C9: when `sources_are_targets` is set, stage S0 generates no
separate target list at all, and the driver binds the traversal's
`target_boxes` to its `source_boxes`. -/
theorem C9_targets_alias_sources (t : Tree) (h : t.sources_are_targets = true) :
    target_boxes_opt t = none ∧
      ∀ info, buildTraversal t = Except.ok info →
        info.target_boxes = info.source_boxes := by
  have hopt : target_boxes_opt t = none := by
    unfold target_boxes_opt
    rw [if_pos h]
  refine ⟨hopt, ?_⟩
  intro info hinfo
  unfold buildTraversal at hinfo
  by_cases hp : t.is_pruned = true
  · rw [if_pos hp] at hinfo
    cases hinfo
    show (target_boxes_opt t).getD (source_boxes t) = source_boxes t
    rw [hopt]
    rfl
  · rw [if_neg hp] at hinfo
    cases hinfo

/-- Claim C9 witness at a concrete tree. -/
theorem C9_targets_alias_sources_witness :
    t1.sources_are_targets = true ∧
      (target_boxes_opt t1 = none ∧
        ∀ info, buildTraversal t1 = Except.ok info →
          info.target_boxes = info.source_boxes) :=
  ⟨rfl, C9_targets_alias_sources t1 rfl⟩

end Boxtree
